import Mathlib

/-!
# Verification of the archive validator (`validateArchive.py`)

A shallow embedding, in Lean 4, of the core of the STM32 project-archive
validation script: the virtual archive namespace, the path/link resolution
engine, the case-collision detection walk, the nature-driven project rule
checks, the `sysmem.c` content fingerprint (including a full MD5 model),
the MCU-family prefix lookup, and the run-level summary verdict.

Python strings are modelled as `String` / `List Char`; Python `set`s as
lists with membership semantics; functions that may raise as `Option`.
All definitions are structurally recursive so that concrete instances
evaluate inside the kernel.
-/

set_option maxRecDepth 16384

namespace ValidateArchive

/-! ## Basic path helpers (source lines 37-61) -/

/-- One step of Python `"/".join(args).replace("//", "/")`: the replacement is
non-overlapping and left-to-right, so `"////"` becomes `"//"`. -/
def squashDoubleSlash : List Char → List Char
  | '/' :: '/' :: rest => '/' :: squashDoubleSlash rest
  | c :: rest => c :: squashDoubleSlash rest
  | [] => []

/-- `myPathJoin(a, b)`: join with `"/"`, then collapse `"//"` once, left to right. -/
def myPathJoin (a b : String) : String :=
  String.mk (squashDoubleSlash (a.toList ++ '/' :: b.toList))

/-- `appendSlashIfMissing` on char lists: `if s and s[-1] != "/": s += "/"`. -/
def appendSlashIfMissingL (cs : List Char) : List Char :=
  if cs ≠ [] ∧ cs.getLast? ≠ some '/' then cs ++ ['/'] else cs

def appendSlashIfMissing (s : String) : String :=
  String.mk (appendSlashIfMissingL s.toList)

/-- The `while s and s[-1] == "/": s = s[0:-1]` loop: remove all trailing `'/'`. -/
def rstripSlashL : List Char → List Char
  | [] => []
  | c :: rest =>
    match rstripSlashL rest with
    | [] => if c = '/' then [] else [c]
    | r => c :: r

/-- The prefix of `cs` up to and including its last `'/'`, or `none` when `cs`
contains no `'/'` (the `head = p[:i]` part of `posixpath.dirname`). -/
def uptoLastSlash : List Char → Option (List Char)
  | [] => none
  | c :: rest =>
    match uptoLastSlash rest with
    | some r => some (c :: r)
    | none => if c = '/' then some ['/'] else none

/-- `posixpath.dirname`: keep everything up to the last separator, then strip
trailing separators unless the head consists only of separators. -/
def dirnameL (cs : List Char) : List Char :=
  match uptoLastSlash cs with
  | none => []
  | some head => if head.any (· ≠ '/') then rstripSlashL head else head

/-- `getParentDirectory` (source lines 47-53): strip trailing slashes, take the
dirname, re-append a trailing slash. -/
def getParentDirectoryL (cs : List Char) : List Char :=
  appendSlashIfMissingL (dirnameL (rstripSlashL cs))

def getParentDirectory (s : String) : String :=
  String.mk (getParentDirectoryL s.toList)

/-- Python `str.split(sep)` for a one-character separator; `"".split("/") = [""]`. -/
def splitChar (sep : Char) : List Char → List (List Char)
  | [] => [[]]
  | c :: rest =>
    let r := splitChar sep rest
    if c = sep then [] :: r
    else
      match r with
      | [] => [[c]]
      | h :: t => (c :: h) :: t

/-- ASCII lower-casing of one character, as `str.lower` acts on the ASCII
paths handled by the validator. -/
def asciiLowerC (c : Char) : Char :=
  if 'A' ≤ c ∧ c ≤ 'Z' then Char.ofNat (c.toNat + 32) else c

def asciiLower (s : String) : String :=
  String.mk (s.toList.map asciiLowerC)

/-- `dropPrefixL pre cs` returns the remainder of `cs` after the literal prefix
`pre`, or `none` when `cs` does not start with `pre` (models anchored literal
regex/`startswith` matching). -/
def dropPrefixL : List Char → List Char → Option (List Char)
  | [], cs => some cs
  | _, [] => none
  | p :: ps, c :: cs => if c = p then dropPrefixL ps cs else none

/-- Python `str.startswith`. -/
def pyStartsWith (s pre : String) : Bool :=
  (dropPrefixL pre.toList s.toList).isSome

/-! ## Relative-path resolution (source lines 956-969) -/

/-- `removeQuotation`: strip one layer of surrounding double quotes. -/
def removeQuotation (s : String) : String :=
  if s.toList.length ≥ 2 ∧ s.toList.head? = some '"' ∧ s.toList.getLast? = some '"' then
    String.mk ((s.toList.drop 1).dropLast)
  else s

/-- `re.match(r"(/\.\.)+$", res)`: the string is a nonempty repetition of
`"/.."`, optionally followed by one final newline (`$` also matches just
before a trailing `'\n'`). -/
def dotDotChainL : List Char → Bool
  | '/' :: '.' :: '.' :: rest =>
    rest.isEmpty || rest == ['\n'] || dotDotChainL rest
  | _ => false

/-- One iteration of the `resolveRelative` loop body over a path segment `p`. -/
def resolveStep (res : String) (p : String) : String :=
  if p = ".." ∧ ¬ (res = "/" ∨ dotDotChainL res.toList = true) then
    getParentDirectory res
  else if p ≠ "." then
    myPathJoin res p
  else res

/-- `Main.resolveRelative(proj, path)` (source lines 962-969). -/
def resolveRelative (proj path : String) : String :=
  (splitChar '/' path.toList).foldl (fun res p => resolveStep res (String.mk p)) proj

/-! ## Symbolic path expression resolution (source lines 895-901, 1051-1058) -/

/-- The prefix `${workspace_loc:/${ProjName}/` of the first `__resolve` regex. -/
def wsProjNameLeader : List Char := "$\x7bworkspace_loc:/$\x7bProjName\x7d/".toList

/-- The part of `cs` strictly before its last `'\x7d'` (closing brace), or
`none` if there is none; this is what the greedy `(.*)}` group captures. -/
def beforeLastBrace (cs : List Char) : Option (List Char) :=
  match (cs.reverse.dropWhile (· ≠ '\x7d')) with
  | [] => none
  | _ :: rest => some rest.reverse

/-- The first `__resolve` regex `"?\$\x7bworkspace_loc:/\$\x7bProjName\x7d/(.*)\x7d(.*?)"?`
applied with `re.match`: an optional leading quote, the literal leader, then
group 1 is everything up to the *last* closing brace (greedy `.*`), and the
lazy group 2 is always empty.  Returns group 1. -/
def matchWsProjName (value : String) : Option String :=
  let v := match value.toList with
    | '"' :: rest => rest
    | l => l
  match dropPrefixL wsProjNameLeader v with
  | none => none
  | some rest =>
    match beforeLastBrace rest with
    | none => none
    | some g1 => some (String.mk g1)

/-- The second `__resolve` regex `"?\$\x7b(workspace_loc:|ProjName)` applied with
`re.match`: after an optional quote the value starts with `${workspace_loc:`
or `${ProjName`. -/
def startsWsVar (value : String) : Bool :=
  let v := match value.toList with
    | '"' :: rest => rest
    | l => l
  (dropPrefixL "$\x7bworkspace_loc:".toList v).isSome ||
    (dropPrefixL "$\x7bProjName".toList v).isSome

/-- `Main.__resolve(proj, build_path, value)` (source lines 895-901): the
workspace-relative `${workspace_loc:/${ProjName}/...}` shape resolves against
the project root; any other `${workspace_loc:`/`${ProjName` expression is
unverifiable (`none`); everything else resolves against the build path after
stripping one layer of quotes. -/
def resolveOpt (proj build_path value : String) : Option String :=
  match matchWsProjName value with
  | some g1 => some (resolveRelative proj g1)
  | none =>
    if startsWsVar value then none
    else some (resolveRelative build_path (removeQuotation value))

/-- Decimal value of a digit run (the `([0-9]+)` group of `resolveLink`). -/
def digitsToNat (ds : List Char) : Nat :=
  ds.foldl (fun n c => 10 * n + (c.toNat - 48)) 0

/-- The `resolveLink` regex `(?:\$%7B)?PARENT-([0-9]+)-PROJECT_LOC(?:%7D)?/(.*)`:
returns the parent count and the remainder path when the URI matches. -/
def parseParentLink (uri : String) : Option (Nat × String) :=
  let u := match dropPrefixL "$%7B".toList uri.toList with
    | some rest => rest
    | none => uri.toList
  match dropPrefixL "PARENT-".toList u with
  | none => none
  | some r1 =>
    let digits := r1.takeWhile Char.isDigit
    if digits.isEmpty then none
    else
      match dropPrefixL "-PROJECT_LOC".toList (r1.drop digits.length) with
      | none => none
      | some r3 =>
        let r4 := match dropPrefixL "%7D".toList r3 with
          | some rest => rest
          | none => r3
        match r4 with
        | '/' :: rest => some (digitsToNat digits, String.mk rest)
        | _ => none

/-- `n`-fold `getParentDirectory`, the `for _ in range(int(m.group(1)))` walk. -/
def iterParent : Nat → String → String
  | 0, d => d
  | n + 1, d => iterParent n (getParentDirectory d)

/-- `Main.resolveLink(proj, eclipseUri)` (source lines 1051-1058): expand a
`PARENT-n-PROJECT_LOC/rest` token; any other URI — including
`${workspace_loc:...}` expressions — is returned unchanged. -/
def resolveLink (proj eclipseUri : String) : String :=
  match parseParentLink eclipseUri with
  | some (n, rest) => myPathJoin (iterParent n proj) rest
  | none => eclipseUri

/-! ## Link / option validation verdicts (source lines 904-954, 972-1008) -/

/-- Outcome of one include-path or linker-script option check.  The codes are
`ER045`/`ER049` empty, `ER046`/`ER049` cannot be verified (informational),
`ER047`/`ER050` wrong case, `ER048`/`ER051` missing from archive. -/
inductive PathVerdict
  | emptyValue
  | unverifiable
  | wrongCase
  | missingEntry
  | ok
deriving DecidableEq, Repr

/-- The body of `Main.__validateIncludePathsOption` for a single
`listOptionValue` (source lines 907-931).  `names` is the exact-case path
set of the layered namespace and `lcNames` its lower-cased image.  The source
indexes `resolved[-1]`, which would raise on an empty resolved path; that case
is unreachable for the option values the validator feeds in. -/
def includePathVerdict (names lcNames : List String) (proj build_path value : String) :
    PathVerdict :=
  if value = "" then .emptyValue
  else
    match resolveOpt proj build_path value with
    | none => .unverifiable
    | some r0 =>
      let r := if r0.toList.getLast? = some '/' then r0 else r0 ++ "/"
      if names.contains r then .ok
      else if lcNames.contains (asciiLower r) then .wrongCase
      else .missingEntry

/-- Outcome of the source-existence half of `Main.validateFileLink`
(source lines 975-984): `ER049` wrong case, `ER050` missing from archive. -/
inductive LinkVerdict
  | ok
  | wrongCase
  | missingEntry
deriving DecidableEq, Repr

def fileLinkSrcVerdict (names lcNames : List String) (resolved : String) : LinkVerdict :=
  if names.contains resolved then .ok
  else if lcNames.contains (asciiLower resolved) then .wrongCase
  else .missingEntry

/-- The destination "hides other resources" walk of `Main.validateFileLink`
(source lines 987-1007): starting from the joined destination path, repeatedly
check the current path, blame it (`some p`) when its lower-cased form is in
the namespace but its exact-cased form is not, stop silently (`none`) on a
cache hit or at the root, and otherwise cache the path and move to its parent.
`fuel` bounds the loop, which in the source terminates by reaching `"/"`. -/
def hidingLoop (names lcNames : List String) : Nat → List String → String → Option String
  | 0, _, _ => none
  | fuel + 1, cache, p =>
    if cache.contains p then none
    else if lcNames.contains (asciiLower p) ∧ ¬ names.contains p then some p
    else if p = "" ∨ p = "/" then none
    else hidingLoop names lcNames fuel (p :: cache) (getParentDirectory p)

/-- The chain of paths the hiding walk visits: the path itself, then its
successive parents, stopping once `""` or `"/"` has been visited. -/
def parentChain : Nat → String → List String
  | 0, _ => []
  | fuel + 1, p =>
    p :: (if p = "" ∨ p = "/" then [] else parentChain fuel (getParentDirectory p))

/-- The condition under which the hiding walk blames a path: its lower-cased
form is a namespace entry while its exact-cased form is not. -/
def hidesPred (names lcNames : List String) (q : String) : Bool :=
  lcNames.contains (asciiLower q) && !(names.contains q)

/-! ## Layered archive view (source lines 110-173, 234-241) -/

/-- One physical archive source: a mapping from virtual path to content, where
`none` content marks an entry (such as a synthesized directory) whose read
raises. -/
structure PyArchive where
  entries : List (String × Option String)

def PyArchive.getFilenames (a : PyArchive) : List String :=
  a.entries.map Prod.fst

/-- `Archive.getFileContent`: `none` models the exception a read of an absent
path or of a directory raises. -/
def PyArchive.getFileContent (a : PyArchive) (p : String) : Option String :=
  match a.entries.lookup p with
  | some (some c) => some c
  | _ => none

/-- The state `Main.__init__` builds (source lines 167-173): sources reversed
so the archive supplied last has the highest priority, plus the union of all
path names. -/
structure PyMain where
  archives : List PyArchive
  names : List String

def mkMain (archivesInOrder : List PyArchive) : PyMain :=
  let revd := archivesInOrder.reverse
  { archives := revd
    names := (revd.map PyArchive.getFilenames).flatten }

/-- `Main.getFileContent` (source lines 234-241): when the path is known, try
each archive in priority order, swallowing read errors, and return the first
content obtained; otherwise `None`. -/
def PyMain.getFileContent (m : PyMain) (p : String) : Option String :=
  if m.names.contains p then
    m.archives.findSome? (fun a => a.getFileContent p)
  else none

/-- Existence in the layered namespace is membership in the merged name set. -/
def PyMain.existsPath (m : PyMain) (p : String) : Bool :=
  m.names.contains p

/-! ## Zip namespace construction (source lines 130-146) -/

/-- `if tmp[0] != "/": tmp = "/" + tmp` (the source would raise on an empty
name, which a zip member list does not contain). -/
def withLeadingSlash (x : String) : String :=
  match x.toList with
  | '/' :: _ => x
  | _ => "/" ++ x

/-- Adding a path to the model dictionary: keys are what matter, so this is
set insertion preserving first-insertion order. -/
def zipInsert (model : List String) (p : String) : List String :=
  if model.contains p then model else model ++ [p]

/-- The `while tmp != "/":` parent-synthesis loop of `Archive.__init__`:
walk to the parent, insert it if absent, repeat until the root has been
inserted.  `fuel` bounds the loop, which in the source terminates by reaching
`"/"`. -/
def addParents : Nat → List String → String → List String
  | 0, model, _ => model
  | fuel + 1, model, tmp =>
    if tmp = "/" then model
    else
      let tmp' := getParentDirectory tmp
      let parent := appendSlashIfMissing tmp'
      addParents fuel (zipInsert model parent) tmp'

/-- The key set of `Archive.__model` for a zip source with the given member
names: each name, made absolute, plus all of its synthesized ancestors. -/
def zipModel (names : List String) : List String :=
  names.foldl
    (fun model x =>
      let tmp := withLeadingSlash x
      addParents tmp.toList.length (zipInsert model tmp) tmp)
    []

/-- A normal absolute path: the root itself, or a leading `'/'` followed by a
non-`'/'` character.  Zip member names made absolute by `withLeadingSlash`
have this shape, and the parent-synthesis loop of the source terminates
exactly because `getParentDirectory` preserves it while shortening the path. -/
def absOKb (s : String) : Bool :=
  (s.toList.head? == some '/') && !(s.toList.tail.head? == some '/')

/-- A namespace is parent-closed when every entry other than the root has its
parent directory as an entry. -/
def parentClosed (ns : List String) : Prop :=
  ∀ p ∈ ns, p ≠ "/" → getParentDirectory p ∈ ns

/-! ## Build-configuration and TrustZone findings (source lines 490-515, 575-626) -/

/-- Python `set(l1) == set(l2)`. -/
def pySetEq (l1 l2 : List String) : Bool :=
  l1.all (l2.contains ·) && l2.all (l1.contains ·)

/-- The build-configuration name checks of `validateCubeIDEProject`
(source lines 607-626): `ER025` no `Debug`, `ER026` no `Release`, `ER027`
wrong order when the name set is exactly the two required names. -/
def configFindings (configNames : List String) : List String :=
  (if configNames.contains "Debug" then [] else ["ER025"]) ++
    (if configNames.contains "Release" then [] else ["ER026"]) ++
      (if pySetEq configNames ["Debug", "Release"] ∧ configNames ≠ ["Debug", "Release"]
        then ["ER027"] else [])

def secNature : String := "com.st.stm32cube.ide.mcu.MCUSecureProjectNature"
def nonSecNature : String := "com.st.stm32cube.ide.mcu.MCUNonSecureProjectNature"
def tzDisabledNature : String := "com.st.stm32cube.ide.mcu.MCUEndUserDisabledTrustZoneProjectNature"
def rootNature : String := "com.st.stm32cube.ide.mcu.MCURootProjectNature"

/-- The TrustZone child scan of a hierarchical root (source lines 495-515):
each child contributes its nature set; `ER014` is raised when no child is
tagged secure and `ER015` when no child is tagged non-secure. -/
def rootPairingFindings (childrenNatures : List (List String)) : List String :=
  let hasSecureChild := childrenNatures.any (·.contains secNature)
  let hasNonSecureChild := childrenNatures.any (·.contains nonSecNature)
  (if hasSecureChild then [] else ["ER014"]) ++
    (if hasNonSecureChild then [] else ["ER015"])

/-- The L5/U5 sub-project checks of `validateCubeIDEProject` (source lines
575-604): both-tags conflict (`ER021`); when TrustZone is not disabled, the
secure/non-secure naming checks against the parent project name (`ER022`,
`ER023`, only when the parent is a hierarchical root) and the non-secure
project-reference check (`ER024`, unconditional on the parent's natures). -/
def l5ChildFindings (natures : List String) (projectName parentProjectName : String)
    (parentNatures : List String) (projectRefs : List String) : List String :=
  (if natures.contains secNature ∧ natures.contains nonSecNature then ["ER021"] else []) ++
    (if ¬ natures.contains tzDisabledNature then
      (if parentNatures.contains rootNature then
        (if natures.contains secNature ∧ projectName ≠ parentProjectName ++ "_Secure"
          then ["ER022"] else []) ++
          (if natures.contains nonSecNature ∧ projectName ≠ parentProjectName ++ "_NonSecure"
            then ["ER023"] else [])
      else []) ++
        (if natures.contains nonSecNature ∧ ¬ projectRefs.contains (parentProjectName ++ "_Secure")
          then ["ER024"] else [])
    else [])

/-! ## Run-level summary verdict (source lines 1136-1198) -/

/-- The observable outcomes feeding the `__main__` summary: for each top-level
project, whether `isEclipseBasedIde` accepted it and the verdicts of
`validateEclipseProject` on its Eclipse sub-projects; for each script, the
verdict of `validateScript`. -/
structure RunInput where
  projects : List (Bool × List Bool)
  scripts : List Bool

/-- `listof_failed_projects`: only projects rejected by `isEclipseBasedIde`
(code `ER100`) are appended; sub-project validation failures are not. -/
def failedProjectsList (r : RunInput) : List (Bool × List Bool) :=
  r.projects.filter (fun pr => ¬ pr.1)

/-- `listof_failed_scripts`: scripts whose validation returned false. -/
def failedScriptsList (r : RunInput) : List Bool :=
  r.scripts.filter (fun ok => ok = false)

/-- `failed_subproj`: failed sub-project validations, counted only for
projects that passed `isEclipseBasedIde` (the others are `continue`d past). -/
def failedSubprojCount (r : RunInput) : Nat :=
  (r.projects.map (fun pr =>
    if pr.1 then (pr.2.filter (fun ok => ok = false)).length else 0)).sum

/-- The summary verdict (source lines 1192-1195): `FAILED VALIDATION` exactly
when the failed-scripts or failed-projects list is nonempty. -/
def runVerdictFailed (r : RunInput) : Bool :=
  !(failedScriptsList r).isEmpty || !(failedProjectsList r).isEmpty

/-! ## The `sysmem.c` fingerprint (source lines 64-70, 178-184, 784-796)

`toSysmemHash` strips `/* ... */` comments (with `re.S`), applies
`re.sub(r'//.*$', '', ...)` *without* `re.M` — which only removes a `//`
comment terminating the final line — removes `'\r'` characters, and MD5-hashes
the UTF-8 encoding of the result.  MD5 is modelled bit-exactly below. -/

/-- Scan for the nearest `*/`, returning the remainder after it (the lazy
`.*?\*/` of the block-comment regex). -/
def dropToClose : List Char → Option (List Char)
  | '*' :: '/' :: rest => some rest
  | _ :: rest => dropToClose rest
  | [] => none

/-- `re.sub(r'/\*.*?\*/', '', content, flags=re.S)`: left-to-right,
non-overlapping removal of each `/*`-to-nearest-`*/` span; a `/*` with no
later `*/` is left in place.  `fuel` bounds the scan; the input's length is
always enough. -/
def stripBlockComments : Nat → List Char → List Char
  | 0, cs => cs
  | fuel + 1, cs =>
    match cs with
    | '/' :: '*' :: rest =>
      match dropToClose rest with
      | some rest' => stripBlockComments fuel rest'
      | none => '/' :: '*' :: stripBlockComments fuel rest
    | c :: rest => c :: stripBlockComments fuel rest
    | [] => []

/-- Truncate a line at its first `//`. -/
def takeUntilSlashSlash : List Char → List Char
  | '/' :: '/' :: _ => []
  | c :: rest => c :: takeUntilSlashSlash rest
  | [] => []

/-- Split into (prefix including the last newline, final line). -/
def splitLastNL (cs : List Char) : List Char × List Char :=
  ((cs.reverse.dropWhile (· ≠ '\n')).reverse, (cs.reverse.takeWhile (· ≠ '\n')).reverse)

/-- `re.sub(r'//.*$', '', content)` without `re.M`: `$` only matches at the
end of the string or just before one trailing newline, so only a `//` comment
on the final line is removed (from its first `//` to the line's end). -/
def stripLineCommentEnd (cs : List Char) : List Char :=
  let bodyNL : List Char × List Char :=
    match cs.getLast? with
    | some '\n' => (cs.dropLast, ['\n'])
    | _ => (cs, [])
  let pre := (splitLastNL bodyNL.1).1
  let lastLine := (splitLastNL bodyNL.1).2
  pre ++ takeUntilSlashSlash lastLine ++ bodyNL.2

/-- `re.sub(r'\r', '', content)`. -/
def stripCR (cs : List Char) : List Char :=
  cs.filter (· ≠ '\r')

/-- The full normalization `toSysmemHash` applies before hashing. -/
def sysmemNormalize (content : String) : String :=
  String.mk (stripCR (stripLineCommentEnd (stripBlockComments content.toList.length content.toList)))

/-- UTF-8 bytes of one character (`str.encode("utf-8")`). -/
def utf8Enc (c : Char) : List Nat :=
  let n := c.toNat
  if n < 128 then [n]
  else if n < 2048 then [192 + n / 64, 128 + n % 64]
  else if n < 65536 then [224 + n / 4096, 128 + (n / 64) % 64, 128 + n % 64]
  else [240 + n / 262144, 128 + (n / 4096) % 64, 128 + (n / 64) % 64, 128 + n % 64]

def strBytes (s : String) : List Nat :=
  (s.toList.map utf8Enc).flatten

/-- `2^32`, the word modulus of MD5. -/
def m32 : Nat := 4294967296

def rotl32 (x n : Nat) : Nat :=
  ((x <<< n) % m32) ||| (x >>> (32 - n))

/-- The MD5 round constants `K[i] = floor(abs(sin(i+1)) * 2^32)` (RFC 1321). -/
def md5K : List Nat :=
  [0xd76aa478, 0xe8c7b756, 0x242070db, 0xc1bdceee,
   0xf57c0faf, 0x4787c62a, 0xa8304613, 0xfd469501,
   0x698098d8, 0x8b44f7af, 0xffff5bb1, 0x895cd7be,
   0x6b901122, 0xfd987193, 0xa679438e, 0x49b40821,
   0xf61e2562, 0xc040b340, 0x265e5a51, 0xe9b6c7aa,
   0xd62f105d, 0x02441453, 0xd8a1e681, 0xe7d3fbc8,
   0x21e1cde6, 0xc33707d6, 0xf4d50d87, 0x455a14ed,
   0xa9e3e905, 0xfcefa3f8, 0x676f02d9, 0x8d2a4c8a,
   0xfffa3942, 0x8771f681, 0x6d9d6122, 0xfde5380c,
   0xa4beea44, 0x4bdecfa9, 0xf6bb4b60, 0xbebfbc70,
   0x289b7ec6, 0xeaa127fa, 0xd4ef3085, 0x04881d05,
   0xd9d4d039, 0xe6db99e5, 0x1fa27cf8, 0xc4ac5665,
   0xf4292244, 0x432aff97, 0xab9423a7, 0xfc93a039,
   0x655b59c3, 0x8f0ccc92, 0xffeff47d, 0x85845dd1,
   0x6fa87e4f, 0xfe2ce6e0, 0xa3014314, 0x4e0811a1,
   0xf7537e82, 0xbd3af235, 0x2ad7d2bb, 0xeb86d391]

/-- The MD5 per-round left-rotation amounts. -/
def md5S : List Nat :=
  [7, 12, 17, 22, 7, 12, 17, 22, 7, 12, 17, 22, 7, 12, 17, 22,
   5, 9, 14, 20, 5, 9, 14, 20, 5, 9, 14, 20, 5, 9, 14, 20,
   4, 11, 16, 23, 4, 11, 16, 23, 4, 11, 16, 23, 4, 11, 16, 23,
   6, 10, 15, 21, 6, 10, 15, 21, 6, 10, 15, 21, 6, 10, 15, 21]

/-- The MD5 nonlinear function for round `i`. -/
def md5F (i b c d : Nat) : Nat :=
  if i < 16 then (b &&& c) ||| (((m32 - 1) ^^^ b) &&& d)
  else if i < 32 then (d &&& b) ||| (((m32 - 1) ^^^ d) &&& c)
  else if i < 48 then b ^^^ c ^^^ d
  else c ^^^ (b ||| ((m32 - 1) ^^^ d))

/-- The message-word index used in round `i`. -/
def md5G (i : Nat) : Nat :=
  if i < 16 then i
  else if i < 32 then (5 * i + 1) % 16
  else if i < 48 then (3 * i + 5) % 16
  else (7 * i) % 16

/-- One MD5 round on the state `(a, b, c, d)`. -/
def md5Round (msg : Nat → Nat) (st : Nat × Nat × Nat × Nat) (i : Nat) :
    Nat × Nat × Nat × Nat :=
  let f := md5F i st.2.1 st.2.2.1 st.2.2.2
  let tmp := (st.1 + f + md5K.getD i 0 + msg (md5G i)) % m32
  (st.2.2.2, (st.2.1 + rotl32 tmp (md5S.getD i 0)) % m32, st.2.1, st.2.2.1)

/-- Little-endian 32-bit word starting at byte offset `j`. -/
def leWord (bytes : List Nat) (j : Nat) : Nat :=
  bytes.getD j 0 + 256 * bytes.getD (j + 1) 0 + 65536 * bytes.getD (j + 2) 0 +
    16777216 * bytes.getD (j + 3) 0

/-- Process one 64-byte block. -/
def md5ProcessBlock (st : Nat × Nat × Nat × Nat) (block : List Nat) :
    Nat × Nat × Nat × Nat :=
  let w := (List.range 64).foldl (md5Round (fun k => leWord block (4 * k))) st
  ((st.1 + w.1) % m32, (st.2.1 + w.2.1) % m32,
   (st.2.2.1 + w.2.2.1) % m32, (st.2.2.2 + w.2.2.2) % m32)

/-- Split into 64-byte chunks (`fuel` bounds the recursion). -/
def chunks64 : Nat → List Nat → List (List Nat)
  | 0, _ => []
  | _, [] => []
  | fuel + 1, l => l.take 64 :: chunks64 fuel (l.drop 64)

/-- Eight little-endian bytes of a 64-bit length. -/
def le8 (n : Nat) : List Nat :=
  (List.range 8).map (fun i => (n >>> (8 * i)) % 256)

/-- MD5 padding: a `0x80` byte, zeros to 56 mod 64, then the bit length. -/
def md5Pad (msg : List Nat) : List Nat :=
  msg ++ 128 :: List.replicate ((120 - (msg.length + 1) % 64) % 64) 0 ++
    le8 ((8 * msg.length) % (2 ^ 64))

def hexDigit (n : Nat) : Char :=
  if n < 10 then Char.ofNat (48 + n) else Char.ofNat (87 + n)

def byteHex (b : Nat) : List Char :=
  [hexDigit (b / 16), hexDigit (b % 16)]

/-- Four little-endian bytes of a 32-bit word. -/
def le4 (n : Nat) : List Nat :=
  [n % 256, (n >>> 8) % 256, (n >>> 16) % 256, (n >>> 24) % 256]

/-- `hashlib.md5(bytes).hexdigest()`. -/
def md5Hex (msg : List Nat) : String :=
  let padded := md5Pad msg
  let w := (chunks64 padded.length padded).foldl md5ProcessBlock
    (0x67452301, 0xefcdab89, 0x98badcfe, 0x10325476)
  String.mk (((le4 w.1 ++ le4 w.2.1 ++ le4 w.2.2.1 ++ le4 w.2.2.2).map byteHex).flatten)

/-- `toSysmemHash(content)` (source lines 64-70). -/
def toSysmemHash (content : String) : String :=
  md5Hex (strBytes (sysmemNormalize content))

/-- The fixed known-good digest of the CubeIDE 1.4.0 `sysmem.c`
(source line 184). -/
def defaultSysmemHash : String := "f757d275b06e3ed0cab2a4da40a6b131"

/-- The reference hash `Main.__init__` selects (source lines 178-184): the
hash of the override file's content when `--sysmem-file` is given, the fixed
digest otherwise. -/
def sysmemRefHash (overrideContent : Option String) : String :=
  match overrideContent with
  | some content => toSysmemHash content
  | none => defaultSysmemHash

/-- `validateSysmemC` flags one `sysmem.c` file exactly when its fingerprint
differs from the reference hash (source lines 788-794, code `ER035`). -/
def sysmemFinding (refHash : String) (content : String) : Bool :=
  refHash ≠ toSysmemHash content

/-! ## MCU family lookup (source lines 74-107) -/

/-- The `McuFamily` member names, in declaration order. -/
def mcuFamilies : List String :=
  ["STM32C0", "STM32F0", "STM32F1", "STM32F2", "STM32F3", "STM32F4", "STM32F7",
   "STM32L0", "STM32L1", "STM32L4", "STM32L5", "STM32H7", "STM32H5", "STM32WB",
   "STM32WBA", "STM32WL", "STM32G0", "STM32GK", "STM32G4", "STM32MP1",
   "STM32MP13", "STM32MP2", "STM32U0", "STM32U5", "STM32N6"]

/-- Stable insertion for `sorted(items, key=lambda x: len(x[0]), reverse=True)`:
an element goes after strictly longer names and before names of its own
length that originally followed it. -/
def insertByLen (s : String) : List String → List String
  | [] => [s]
  | t :: ts => if s.length < t.length then t :: insertByLen s ts else s :: t :: ts

def sortByLenDesc (l : List String) : List String :=
  l.foldr insertByLen []

/-- `toMcuFamily` (source lines 102-107): the first name, in descending
length order, that is a prefix of the MCU name; `none` models the
`LookupError`. -/
def toMcuFamily (mcuName : String) : Option String :=
  (sortByLenDesc mcuFamilies).find? (fun n => pyStartsWith mcuName n)

/-! ## Theorems -/

/-- C1 (code bug): the run-level verdict tracks only failed scripts and
projects rejected by `isEclipseBasedIde` (`ER100`); a run whose single
Eclipse-based project has one failing sub-project validation is counted in
`failed_subproj` yet the summary still reports success, while a non-Eclipse
project or a failing script does flip the verdict to failure. -/
theorem runVerdict_ignores_subproject_findings :
    runVerdictFailed ⟨[(true, [false])], []⟩ = false
    ∧ failedSubprojCount ⟨[(true, [false])], []⟩ = 1
    ∧ runVerdictFailed ⟨[(false, [])], []⟩ = true
    ∧ runVerdictFailed ⟨[], [false]⟩ = true
    ∧ runVerdictFailed ⟨[(true, [true, true])], [true]⟩ = false := by
  decide

/-- C2 (counterexample): resolving a lone `..` from the namespace root is not
a no-op — the source appends a literal `..` segment, producing `/..` rather
than staying at `/`. -/
theorem resolveRelative_root_dotdot_counterexample :
    resolveRelative "/" ".." = "/.." ∧ ("/.." : String) ≠ "/" := by
  exact ⟨by decide, by decide⟩

/-- C2 (amended): `.` segments are dropped; a `..` segment pops the last
segment of the accumulated path unless that path is the namespace root or
consists entirely of `/..` segments, in which case the `..` is appended as a
literal segment (deterministically, never an error); resolving
`../../Inc/foo.h` from `/Proj/Debug/` yields `/Inc/foo.h`, and from the
depth-one `/foo.h` it yields the deterministic `/../Inc/foo.h`. -/
theorem resolveRelative_amended :
    resolveRelative "/Proj/Debug/" "../../Inc/foo.h" = "/Inc/foo.h"
    ∧ resolveRelative "/foo.h" "../../Inc/foo.h" = "/../Inc/foo.h"
    ∧ (∀ res : String, resolveStep res "." = res)
    ∧ (∀ res : String, res ≠ "/" → dotDotChainL res.toList = false →
        resolveStep res ".." = getParentDirectory res)
    ∧ (∀ res : String, res = "/" ∨ dotDotChainL res.toList = true →
        resolveStep res ".." = myPathJoin res "..")
    ∧ (∀ res p : String, p ≠ "." → p ≠ ".." → resolveStep res p = myPathJoin res p) := by
  refine ⟨by decide, by decide, ?_, ?_, ?_, ?_⟩
  · intro res
    simp [resolveStep]
  · intro res h1 h2
    have h2' : dotDotChainL res.data = false := h2
    simp [resolveStep, h1, h2, h2']
  · intro res h
    rcases h with h | h
    · simp [resolveStep, h]
    · have h' : dotDotChainL res.data = true := h
      simp [resolveStep, h, h']
  · intro res p h1 h2
    simp [resolveStep, h1, h2]

/-- C2 (witness): the amended pop rule applied at the concrete path
`/Proj/Debug` with segment `..`. -/
theorem resolveRelative_amended_witness :
    resolveStep "/Proj/Debug" ".." = getParentDirectory "/Proj/Debug" :=
  resolveRelative_amended.2.2.2.1 "/Proj/Debug" (by decide) (by decide)

/-- C4 (counterexample): a linked resource whose location is a
`${workspace_loc:...}` expression is passed through `resolveLink` unchanged
and, being absent from the archive, the file-link check reports it with the
hard "missing from archive" code, not the informational unverifiable one. -/
theorem resolveLink_wsloc_reported_missing :
    resolveLink "/Proj/" "$\x7bworkspace_loc:/Other/foo.c\x7d"
      = "$\x7bworkspace_loc:/Other/foo.c\x7d"
    ∧ fileLinkSrcVerdict ["/", "/Proj/"] ["/", "/proj/"]
        (resolveLink "/Proj/" "$\x7bworkspace_loc:/Other/foo.c\x7d")
      = LinkVerdict.missingEntry := by
  exact ⟨by decide, by decide⟩

/-- C4 (amended): a build-configuration option value that is a
`${workspace_loc:...}` or `${ProjName}` expression not matching the
`${workspace_loc:/${ProjName}/...}` shape resolves to `none` and is reported
with the informational unverifiable code; a linked resource's location,
however, is passed through `resolveLink` unchanged and, when absent from the
archive, is reported as missing. -/
theorem symbolic_resolution_amended :
    (∀ proj bp v : String, startsWsVar v = true → matchWsProjName v = none →
      resolveOpt proj bp v = none)
    ∧ includePathVerdict ["/", "/P/"] ["/", "/p/"] "/P/" "/P/Debug/"
        "$\x7bworkspace_loc:/Other/Inc\x7d" = PathVerdict.unverifiable
    ∧ (∀ proj uri : String, parseParentLink uri = none → resolveLink proj uri = uri)
    ∧ fileLinkSrcVerdict ["/", "/P/"] ["/", "/p/"]
        (resolveLink "/P/" "$\x7bProjName\x7d/x.c") = LinkVerdict.missingEntry := by
  refine ⟨?_, by decide, ?_, by decide⟩
  · intro proj bp v h1 h2
    simp [resolveOpt, h2, h1]
  · intro proj uri h
    simp [resolveLink, h]

/-- C4 (witness): the amended rule at the concrete unverifiable option value
`${workspace_loc:/Other/Inc}` and the concrete pass-through URI. -/
theorem symbolic_resolution_amended_witness :
    resolveOpt "/P/" "/P/Debug/" "$\x7bworkspace_loc:/Other/Inc\x7d" = none
    ∧ resolveLink "/P/" "$\x7bProjName\x7d/x.c" = "$\x7bProjName\x7d/x.c" :=
  ⟨symbolic_resolution_amended.1 "/P/" "/P/Debug/" "$\x7bworkspace_loc:/Other/Inc\x7d"
      (by decide) (by decide),
    symbolic_resolution_amended.2.2.1 "/P/" "$\x7bProjName\x7d/x.c" (by decide)⟩

/-- Helper: a successful association-list lookup implies key membership in the
projection onto keys. -/
theorem lookup_some_mem_fst (l : List (String × Option String)) (p : String)
    (v : Option String) (h : l.lookup p = some v) : p ∈ l.map Prod.fst := by
  induction l with
  | nil => simp [List.lookup] at h
  | cons a t ih =>
    obtain ⟨k, b⟩ := a
    simp only [List.lookup] at h
    by_cases hk : p = k
    · simp [hk]
    · have hk' : (p == k) = false := by simpa using hk
      rw [hk'] at h
      simpa using Or.inr (ih h)

/-- C5: when two archive sources both contain the same exact-cased path, the
layered view built from them in command-line order returns the later
source's content for a read, and the path exists in the merged name set. -/
theorem layered_read_prefers_later (a b : PyArchive) (p c1 c2 : String)
    (_h1 : a.entries.lookup p = some (some c1))
    (h2 : b.entries.lookup p = some (some c2)) :
    (mkMain [a, b]).getFileContent p = some c2
    ∧ (mkMain [a, b]).existsPath p = true := by
  have hmemb : p ∈ b.getFilenames := lookup_some_mem_fst _ _ _ h2
  have hnames : ((mkMain [a, b]).names.contains p) = true := by
    refine List.elem_iff.mpr ?_
    simp only [mkMain, List.reverse_cons, List.reverse_nil, List.nil_append,
      List.cons_append, List.map_cons, List.map_nil, List.flatten, List.append_nil,
      List.mem_append]
    exact Or.inl hmemb
  refine ⟨?_, hnames⟩
  simp only [PyMain.getFileContent]
  rw [if_pos (by simpa using hnames)]
  simp only [mkMain, List.reverse_cons, List.reverse_nil, List.nil_append,
    List.cons_append, List.findSome?]
  simp [PyArchive.getFileContent, h2]

/-- C5 (witness): two concrete one-entry sources holding different content at
`/a/b.txt`; the layered view reads the later one's content. -/
theorem layered_read_prefers_later_witness :
    (mkMain [⟨[("/a/b.txt", some "one")]⟩, ⟨[("/a/b.txt", some "two")]⟩]).getFileContent
        "/a/b.txt" = some "two"
    ∧ (mkMain [⟨[("/a/b.txt", some "one")]⟩, ⟨[("/a/b.txt", some "two")]⟩]).existsPath
        "/a/b.txt" = true :=
  layered_read_prefers_later ⟨[("/a/b.txt", some "one")]⟩ ⟨[("/a/b.txt", some "two")]⟩
    "/a/b.txt" "one" "two" (by decide) (by decide)

/-- C6: the order finding `ER027` is raised exactly when the configuration
name set equals {Debug, Release} while the declared sequence differs from
[Debug, Release]; `[Release, Debug]` raises exactly it, `[Debug, Release,
Test]` raises no finding at all, and a missing required name is reported by
the distinct codes `ER025`/`ER026`. -/
theorem configFindings_order_rule :
    (∀ cn : List String, "ER027" ∈ configFindings cn ↔
      (pySetEq cn ["Debug", "Release"] = true ∧ cn ≠ ["Debug", "Release"]))
    ∧ configFindings ["Release", "Debug"] = ["ER027"]
    ∧ configFindings ["Debug", "Release", "Test"] = []
    ∧ configFindings ["Debug", "Release"] = []
    ∧ configFindings ["Release"] = ["ER025"]
    ∧ configFindings ["Debug"] = ["ER026"] := by
  refine ⟨?_, by decide, by decide, by decide, by decide, by decide⟩
  intro cn
  simp only [configFindings, List.mem_append]
  split_ifs with h1 h2 h3 <;> (try simp_all) <;> assumption

/-- C7 (counterexample): a TrustZone-capable root with two secure children
and one non-secure child yields no pairing finding at all — the code checks
for the existence of a secure child, not for exactly one. -/
theorem rootPairing_two_secure_counterexample :
    rootPairingFindings [[secNature], [secNature], [nonSecNature]] = [] := by
  decide

/-- C7 (amended): at least one secure child and at least one non-secure child
are required, the two missing-child findings being raised independently of
each other; a root with one non-secure child and no secure child yields
exactly the secure-missing finding; and a non-secure child whose project
references omit `<Root>_Secure` receives the missing-reference finding
`ER024` regardless of the outcome of every other check. -/
theorem trustzone_pairing_amended :
    (∀ children : List (List String),
      "ER014" ∈ rootPairingFindings children ↔
        children.any (·.contains secNature) = false)
    ∧ (∀ children : List (List String),
      "ER015" ∈ rootPairingFindings children ↔
        children.any (·.contains nonSecNature) = false)
    ∧ rootPairingFindings [[nonSecNature]] = ["ER014"]
    ∧ (∀ (natures : List String) (pn ppn : String) (pnat refs : List String),
        natures.contains nonSecNature = true →
        natures.contains tzDisabledNature = false →
        refs.contains (ppn ++ "_Secure") = false →
        "ER024" ∈ l5ChildFindings natures pn ppn pnat refs) := by
  refine ⟨?_, ?_, by decide, ?_⟩
  · intro children
    cases hs : children.any (·.contains secNature) <;>
      cases hn : children.any (·.contains nonSecNature) <;>
        simp only [rootPairingFindings, hs, hn] <;> simp
  · intro children
    cases hs : children.any (·.contains secNature) <;>
      cases hn : children.any (·.contains nonSecNature) <;>
        simp only [rootPairingFindings, hs, hn] <;> simp
  · intro natures pn ppn pnat refs h1 h2 h3
    simp only [l5ChildFindings, h1, h2, h3, List.mem_append]
    simp

/-- C7 (witness): the amended reference rule at a concrete non-secure child
with an empty reference list. -/
theorem trustzone_pairing_amended_witness :
    "ER024" ∈ l5ChildFindings [nonSecNature] "P_NonSecure" "P" [rootNature] [] :=
  trustzone_pairing_amended.2.2.2 [nonSecNature] "P_NonSecure" "P" [rootNature] []
    (by decide) (by decide) (by decide)

/-- C8 (counterexample): two `sysmem.c` contents that differ only in a `//`
comment on a non-final line hash differently — the `//`-comment stripper is
anchored to the end of the content, so interior line comments survive into
the fingerprint. -/
theorem sysmem_midline_comment_counterexample :
    toSysmemHash "a // c\nb" ≠ toSysmemHash "a \nb" := by
  decide

/-- C8 (amended): the fingerprint is MD5 over the content with block comments
stripped, a `//` comment terminating the final line stripped, and carriage
returns removed; contents agreeing after that normalization (in particular
ones differing only in block comments, in a final-line `//` comment, or in
CRLF-versus-LF line endings) hash identically; a `sysmem.c` is flagged
exactly when its fingerprint differs from the reference hash, which defaults
to the fixed digest `f757d275b06e3ed0cab2a4da40a6b131` and is replaced by the
hash of the caller-supplied file when one is given. -/
theorem sysmem_fingerprint_amended :
    (∀ c1 c2 : String, sysmemNormalize c1 = sysmemNormalize c2 →
      toSysmemHash c1 = toSysmemHash c2)
    ∧ toSysmemHash "a/*x*/b" = toSysmemHash "a/*a longer\ncomment*/b"
    ∧ toSysmemHash "a;\r\nb;\r\n" = toSysmemHash "a;\nb;\n"
    ∧ toSysmemHash "x; //last\n" = toSysmemHash "x; //other\n"
    ∧ (∀ ref c : String, sysmemFinding ref c = true ↔ ref ≠ toSysmemHash c)
    ∧ sysmemRefHash none = defaultSysmemHash
    ∧ (∀ c : String, sysmemRefHash (some c) = toSysmemHash c) := by
  refine ⟨?_, by decide, by decide, by decide, ?_, rfl, fun c => rfl⟩
  · intro c1 c2 h
    simp [toSysmemHash, h]
  · intro ref c
    simp [sysmemFinding]

/-- C8 (witness): the normalization-congruence rule applied at two concrete
contents differing only in a block comment. -/
theorem sysmem_fingerprint_amended_witness :
    toSysmemHash "q/*one*/w" = toSysmemHash "q/*two*/w" :=
  sysmem_fingerprint_amended.1 "q/*one*/w" "q/*two*/w" (by decide)

/-- Helper: with a cache disjoint from a duplicate-free visit chain, the
hiding walk returns the first chain element satisfying the blame predicate. -/
theorem hidingLoop_eq_find (names lcNames : List String) (fuel : Nat) :
    ∀ (cache : List String) (p : String),
      (parentChain fuel p).Nodup →
      (∀ q ∈ cache, q ∉ parentChain fuel p) →
      hidingLoop names lcNames fuel cache p
        = (parentChain fuel p).find? (hidesPred names lcNames) := by
  induction fuel with
  | zero => intro cache p _ _; rfl
  | succ fuel ih =>
    intro cache p hnd hcache
    have hself : p ∈ parentChain (fuel + 1) p := by
      rw [parentChain]; exact List.mem_cons_self _ _
    have hnotc : cache.contains p = false := by
      rcases hcon : cache.contains p with _ | _
      · rfl
      · exact absurd hself (hcache p (List.elem_iff.mp hcon))
    rw [hidingLoop, parentChain, if_neg (by simpa using hnotc)]
    by_cases hp : lcNames.contains (asciiLower p) ∧ ¬ names.contains p
    · have hpred : hidesPred names lcNames p = true := by
        rw [hidesPred, hp.1]
        have : names.contains p = false := by simpa using hp.2
        rw [this]
        rfl
      rw [if_pos hp, List.find?_cons_of_pos _ hpred]
    · have hpred : hidesPred names lcNames p = false := by
        rw [hidesPred]
        cases hlc : lcNames.contains (asciiLower p) with
        | false => rfl
        | true =>
          cases hn : names.contains p with
          | true => rfl
          | false => exact absurd ⟨hlc, fun hcon => by simp at hcon hn; exact hn hcon⟩ hp
      rw [if_neg hp, List.find?_cons_of_neg _ (by simp [hpred])]
      by_cases hroot : p = "" ∨ p = "/"
      · rw [if_pos hroot, if_pos hroot]
        rfl
      · rw [if_neg hroot, if_neg hroot]
        rw [parentChain, if_neg hroot] at hnd
        have htail := List.nodup_cons.mp hnd
        refine ih (p :: cache) (getParentDirectory p) htail.2 ?_
        intro q hq
        rcases List.mem_cons.mp hq with rfl | hq'
        · exact htail.1
        · intro hqin
          refine hcache q hq' ?_
          rw [parentChain, if_neg hroot]
          exact List.mem_cons_of_mem _ hqin

/-- C3 (counterexample): with `/Inc/` and `/Inc/Foo.h` both present in the
namespace, querying `/inc/Foo.h` is blamed at the deepest mismatched path —
the query itself — not at the shallowest mismatched ancestor `/inc/`. -/
theorem hidingWalk_deepest_counterexample :
    hidingLoop ["/", "/Inc/", "/Inc/Foo.h"] ["/", "/inc/", "/inc/foo.h"] 20 [] "/inc/Foo.h"
      = some "/inc/Foo.h"
    ∧ ("/inc/Foo.h" : String) ≠ "/inc/" := by
  exact ⟨by decide, by decide⟩

/-- C3 (amended): a fresh collision walk visits the queried path and its
ancestors bottom-up and blames the first visited — that is, the deepest —
path whose lower-cased form is a namespace entry while its exact-cased form
is not; in the spec's example (namespace `/Inc/`, query `/inc/Foo.h`, with
`/inc/foo.h` absent even case-insensitively) the verdict is the collision at
`/inc/`, not a miss and not the deeper segment. -/
theorem hidingWalk_blames_deepest (names lcNames : List String) (fuel : Nat) (p : String)
    (hnd : (parentChain fuel p).Nodup) :
    hidingLoop names lcNames fuel [] p
      = (parentChain fuel p).find? (hidesPred names lcNames)
    ∧ hidingLoop ["/", "/Inc/"] ["/", "/inc/"] 20 [] "/inc/Foo.h" = some "/inc/" := by
  refine ⟨?_, by decide⟩
  exact hidingLoop_eq_find names lcNames fuel [] p hnd (by simp)

/-- C3 (witness): the amended walk characterization at the spec's concrete
namespace and query. -/
theorem hidingWalk_blames_deepest_witness :
    hidingLoop ["/", "/Inc/"] ["/", "/inc/"] 20 [] "/inc/Foo.h"
      = (parentChain 20 "/inc/Foo.h").find? (hidesPred ["/", "/Inc/"] ["/", "/inc/"]) :=
  (hidingWalk_blames_deepest ["/", "/Inc/"] ["/", "/inc/"] 20 "/inc/Foo.h" (by decide)).1

/-- Helper: membership through the stable insertion. -/
theorem mem_insertByLen (s y : String) (l : List String) :
    y ∈ insertByLen s l ↔ y = s ∨ y ∈ l := by
  induction l with
  | nil => simp [insertByLen]
  | cons t ts ih =>
    simp only [insertByLen]
    split_ifs with h
    · simp only [List.mem_cons, ih]
      tauto
    · simp only [List.mem_cons]

/-- Helper: the length-descending sort is a permutation membership-wise. -/
theorem mem_sortByLenDesc (y : String) (l : List String) :
    y ∈ sortByLenDesc l ↔ y ∈ l := by
  induction l with
  | nil => simp [sortByLenDesc]
  | cons x t ih =>
    simp only [sortByLenDesc, List.foldr_cons] at ih ⊢
    rw [mem_insertByLen]
    simp [ih]

/-- Helper: insertion preserves the length-descending pairwise order. -/
theorem pairwise_insertByLen (s : String) (l : List String)
    (h : l.Pairwise (fun a b => b.length ≤ a.length)) :
    (insertByLen s l).Pairwise (fun a b => b.length ≤ a.length) := by
  induction l with
  | nil => simp [insertByLen]
  | cons t ts ih =>
    rcases List.pairwise_cons.mp h with ⟨ht, hts⟩
    simp only [insertByLen]
    split_ifs with hlen
    · refine List.pairwise_cons.mpr ⟨?_, ih hts⟩
      intro y hy
      rcases (mem_insertByLen s y ts).mp hy with rfl | hy'
      · omega
      · exact ht y hy'
    · refine List.pairwise_cons.mpr ⟨?_, h⟩
      intro y hy
      rcases List.mem_cons.mp hy with rfl | hy'
      · omega
      · have := ht y hy'
        omega

/-- Helper: the sorted list is length-descending. -/
theorem pairwise_sortByLenDesc (l : List String) :
    (sortByLenDesc l).Pairwise (fun a b => b.length ≤ a.length) := by
  induction l with
  | nil => simp [sortByLenDesc]
  | cons x t ih => exact pairwise_insertByLen x _ ih

/-- Helper: on a length-descending list, `find?` returns a hit of maximal
length among all hits. -/
theorem find?_sorted_max (l : List String) (q : String → Bool)
    (hsort : l.Pairwise (fun a b => b.length ≤ a.length)) (m : String)
    (hfind : l.find? q = some m) :
    ∀ y ∈ l, q y = true → y.length ≤ m.length := by
  induction l with
  | nil => simp at hfind
  | cons a as ih =>
    rcases List.pairwise_cons.mp hsort with ⟨ha, has⟩
    by_cases hqa : q a = true
    · rw [List.find?_cons_of_pos _ hqa] at hfind
      have hma : a = m := by injection hfind
      subst hma
      intro y hy _
      rcases List.mem_cons.mp hy with rfl | hy'
      · exact le_refl _
      · exact ha y hy'
    · rw [List.find?_cons_of_neg _ (by simpa using hqa)] at hfind
      intro y hy hqy
      rcases List.mem_cons.mp hy with rfl | hy'
      · exact absurd hqy hqa
      · exact ih has hfind y hy' hqy

/-- C10: `toMcuFamily` returns the family whose member name is the
longest prefix of the MCU name (candidates being tried in decreasing name
length), raising a lookup error exactly when no family name is a prefix; in
particular names starting `STM32MP13` map to `STM32MP13`, not `STM32MP1`. -/
theorem toMcuFamily_longest_match :
    (∀ (name fam : String), toMcuFamily name = some fam →
      fam ∈ mcuFamilies ∧ pyStartsWith name fam = true ∧
        ∀ f ∈ mcuFamilies, pyStartsWith name f = true → f.length ≤ fam.length)
    ∧ (∀ name : String, toMcuFamily name = none ↔
        ∀ f ∈ mcuFamilies, pyStartsWith name f = false)
    ∧ toMcuFamily "STM32MP135Cxx" = some "STM32MP13"
    ∧ toMcuFamily "STM32MP157AAC" = some "STM32MP1" := by
  refine ⟨?_, ?_, by decide, by decide⟩
  · intro name fam hfind
    refine ⟨?_, List.find?_some hfind, ?_⟩
    · exact (mem_sortByLenDesc fam mcuFamilies).mp (List.mem_of_find?_eq_some hfind)
    · intro f hf hq
      exact find?_sorted_max _ _ (pairwise_sortByLenDesc mcuFamilies) fam hfind f
        ((mem_sortByLenDesc f mcuFamilies).mpr hf) hq
  · intro name
    rw [toMcuFamily, List.find?_eq_none]
    constructor
    · intro h f hf
      have := h f ((mem_sortByLenDesc f mcuFamilies).mpr hf)
      simpa using this
    · intro h f hf
      have := h f ((mem_sortByLenDesc f mcuFamilies).mp hf)
      simp [this]

/-- C10 (witness): the longest-match rule applied at a concrete MCU name. -/
theorem toMcuFamily_longest_match_witness :
    pyStartsWith "STM32MP135Cxx" "STM32MP13" = true :=
  (toMcuFamily_longest_match.1 "STM32MP135Cxx" "STM32MP13" (by decide)).2.1

/-- Helper: stripping trailing slashes never lengthens a string. -/
theorem rstripSlashL_length_le (cs : List Char) :
    (rstripSlashL cs).length ≤ cs.length := by
  induction cs with
  | nil => simp [rstripSlashL]
  | cons c rest ih =>
    simp only [rstripSlashL]
    cases h : rstripSlashL rest with
    | nil =>
      split_ifs <;> simp
    | cons a as =>
      rw [h] at ih
      simp only [List.length_cons] at ih ⊢
      omega

/-- Helper: the result of stripping trailing slashes never ends in one. -/
theorem rstripSlashL_getLast (cs : List Char) :
    (rstripSlashL cs).getLast? ≠ some '/' := by
  induction cs with
  | nil => simp [rstripSlashL]
  | cons c rest ih =>
    simp only [rstripSlashL]
    cases h : rstripSlashL rest with
    | nil =>
      split_ifs with hc
      · simp
      · simpa using hc
    | cons a as =>
      rw [h] at ih
      rwa [List.getLast?_cons_cons]

/-- Helper: stripping trailing slashes keeps a two-character head whose second
character is not a slash. -/
theorem rstripSlashL_keep2 (x₀ x₁ : Char) (l' : List Char) (h : x₁ ≠ '/') :
    ∃ m, rstripSlashL (x₀ :: x₁ :: l') = x₀ :: x₁ :: m := by
  have h2 : ∃ m', rstripSlashL (x₁ :: l') = x₁ :: m' := by
    simp only [rstripSlashL]
    cases hr : rstripSlashL l' with
    | nil => rw [if_neg h]; exact ⟨[], rfl⟩
    | cons a as => exact ⟨a :: as, rfl⟩
  obtain ⟨m', hm⟩ := h2
  refine ⟨m', ?_⟩
  have hstep : rstripSlashL (x₀ :: x₁ :: l')
      = match rstripSlashL (x₁ :: l') with
        | [] => if x₀ = '/' then [] else [x₀]
        | r => x₀ :: r := rfl
  rw [hstep, hm]

/-- Helper: when the string ends in a slash, stripping strictly shortens it. -/
theorem rstripSlashL_lt (cs : List Char) (h : cs.getLast? = some '/') :
    (rstripSlashL cs).length < cs.length := by
  induction cs with
  | nil => simp at h
  | cons c rest ih =>
    cases rest with
    | nil =>
      simp only [List.getLast?_singleton, Option.some.injEq] at h
      simp [rstripSlashL, h]
    | cons b bs =>
      have h' : (b :: bs).getLast? = some '/' := by rwa [List.getLast?_cons_cons] at h
      have hlt := ih h'
      have hstep : rstripSlashL (c :: b :: bs)
          = match rstripSlashL (b :: bs) with
            | [] => if c = '/' then [] else [c]
            | r => c :: r := rfl
      rw [hstep]
      cases hr : rstripSlashL (b :: bs) with
      | nil =>
        split_ifs <;> simp only [List.length_cons, List.length_nil,
          List.length_singleton] <;> omega
      | cons a as =>
        rw [hr] at hlt
        simp only [List.length_cons] at hlt ⊢
        omega

/-- Helper: the head returned by `uptoLastSlash` is nonempty and slash-final. -/
theorem uptoLastSlash_ends_slash (cs : List Char) :
    ∀ hd, uptoLastSlash cs = some hd → hd ≠ [] ∧ hd.getLast? = some '/' := by
  induction cs with
  | nil => intro hd h; simp [uptoLastSlash] at h
  | cons c rest ih =>
    intro hd h
    simp only [uptoLastSlash] at h
    cases hr : uptoLastSlash rest with
    | some r =>
      rw [hr] at h
      simp only [Option.some.injEq] at h
      subst h
      obtain ⟨hne, hlast⟩ := ih r hr
      refine ⟨by simp, ?_⟩
      cases r with
      | nil => exact absurd rfl hne
      | cons y ys => rwa [List.getLast?_cons_cons]
    | none =>
      rw [hr] at h
      split_ifs at h with hc
      simp only [Option.some.injEq] at h
      subst h
      exact ⟨by simp, by simp⟩

/-- Helper: the head returned by `uptoLastSlash` is no longer than the input,
and strictly shorter when the input does not end in a slash. -/
theorem uptoLastSlash_length (cs : List Char) :
    ∀ hd, uptoLastSlash cs = some hd →
      hd.length ≤ cs.length ∧ (cs.getLast? ≠ some '/' → hd.length < cs.length) := by
  induction cs with
  | nil => intro hd h; simp [uptoLastSlash] at h
  | cons c rest ih =>
    intro hd h
    simp only [uptoLastSlash] at h
    cases hr : uptoLastSlash rest with
    | some r =>
      rw [hr] at h
      simp only [Option.some.injEq] at h
      subst h
      obtain ⟨hle, hlt⟩ := ih r hr
      have hrestne : rest ≠ [] := by
        intro he
        rw [he] at hr
        simp [uptoLastSlash] at hr
      constructor
      · simp only [List.length_cons]
        omega
      · intro hlast
        cases rest with
        | nil => exact absurd rfl hrestne
        | cons b bs =>
          rw [List.getLast?_cons_cons] at hlast
          have := hlt hlast
          simp only [List.length_cons] at this ⊢
          omega
    | none =>
      rw [hr] at h
      split_ifs at h with hc
      simp only [Option.some.injEq] at h
      subst h
      constructor
      · simp only [List.length_singleton, List.length_cons, List.length_nil]
        omega
      · intro hlast
        cases rest with
        | nil =>
          exact absurd (by simp [hc]) hlast
        | cons b bs =>
          simp only [List.length_singleton, List.length_cons, List.length_nil]
          omega

/-- Helper: a string containing a slash has a last-slash head. -/
theorem uptoLastSlash_isSome (cs : List Char) (h : '/' ∈ cs) :
    ∃ hd, uptoLastSlash cs = some hd := by
  induction cs with
  | nil => simp at h
  | cons c rest ih =>
    simp only [uptoLastSlash]
    cases hr : uptoLastSlash rest with
    | some r => exact ⟨c :: r, rfl⟩
    | none =>
      rcases List.mem_cons.mp h with hc | hm
      · rw [if_pos hc.symm]
        exact ⟨['/'], rfl⟩
      · obtain ⟨r, hrr⟩ := ih hm
        rw [hrr] at hr
        cases hr

/-- Helper: the last-slash head of `/c...` with `c ≠ '/'` is either the bare
root or again starts `/c`. -/
theorem uptoLastSlash_keep2 (c : Char) (l' : List Char) (hd : List Char) (hc : c ≠ '/')
    (h : uptoLastSlash ('/' :: c :: l') = some hd) :
    hd = ['/'] ∨ ∃ m, hd = '/' :: c :: m := by
  have hstep : uptoLastSlash ('/' :: c :: l')
      = match uptoLastSlash (c :: l') with
        | some r => some ('/' :: r)
        | none => if ('/' : Char) = '/' then some ['/'] else none := rfl
  rw [hstep] at h
  cases h1 : uptoLastSlash (c :: l') with
  | some r =>
    rw [h1] at h
    simp only [Option.some.injEq] at h
    subst h
    have hstep2 : uptoLastSlash (c :: l')
        = match uptoLastSlash l' with
          | some r2 => some (c :: r2)
          | none => if c = '/' then some ['/'] else none := rfl
    rw [hstep2] at h1
    cases h2 : uptoLastSlash l' with
    | some r2 =>
      rw [h2] at h1
      simp only [Option.some.injEq] at h1
      subst h1
      exact Or.inr ⟨r2, rfl⟩
    | none =>
      rw [h2, if_neg hc] at h1
      cases h1
  | none =>
    rw [h1, if_pos rfl] at h
    simp only [Option.some.injEq] at h
    subst h
    exact Or.inl rfl

/-- Helper: appending a slash adds at most one character. -/
theorem appendSlashIfMissingL_length_le (l : List Char) :
    (appendSlashIfMissingL l).length ≤ l.length + 1 := by
  rw [appendSlashIfMissingL]
  split_ifs <;> simp

/-- Helper: `appendSlashIfMissingL` is idempotent. -/
theorem appendSlashIfMissingL_idem (l : List Char) :
    appendSlashIfMissingL (appendSlashIfMissingL l) = appendSlashIfMissingL l := by
  by_cases h1 : l ≠ [] ∧ l.getLast? ≠ some '/'
  · have hin : appendSlashIfMissingL l = l ++ ['/'] := by
      rw [appendSlashIfMissingL, if_pos h1]
    rw [hin, appendSlashIfMissingL, if_neg]
    intro hcon
    exact hcon.2 (by simp)
  · have hin : appendSlashIfMissingL l = l := by
      rw [appendSlashIfMissingL, if_neg h1]
    rw [hin, hin]

/-- Helper: the parent of a normal absolute non-root path is strictly
shorter. -/
theorem getParentDirectoryL_length_lt (c : Char) (l' : List Char) (hc : c ≠ '/') :
    (getParentDirectoryL ('/' :: c :: l')).length < ('/' :: c :: l').length := by
  obtain ⟨m, hm⟩ := rstripSlashL_keep2 '/' c l' hc
  have ht_le : ('/' :: c :: m).length ≤ ('/' :: c :: l').length := by
    rw [← hm]
    exact rstripSlashL_length_le _
  have ht_last : ('/' :: c :: m).getLast? ≠ some '/' := by
    rw [← hm]
    exact rstripSlashL_getLast _
  obtain ⟨hd, hhd⟩ := uptoLastSlash_isSome ('/' :: c :: m) (List.mem_cons_self _ _)
  obtain ⟨hdne, hdlast⟩ := uptoLastSlash_ends_slash _ hd hhd
  obtain ⟨hdle, hdlt⟩ := uptoLastSlash_length _ hd hhd
  have hdlt' : hd.length < ('/' :: c :: m).length := hdlt ht_last
  have hres : (getParentDirectoryL ('/' :: c :: l')).length ≤ hd.length := by
    simp only [getParentDirectoryL, hm, dirnameL, hhd]
    split_ifs with hany
    · have h4 := rstripSlashL_lt hd hdlast
      have h5 := appendSlashIfMissingL_length_le (rstripSlashL hd)
      omega
    · rw [appendSlashIfMissingL, if_neg (fun hcon => hcon.2 hdlast)]
  simp only [List.length_cons] at *
  omega

/-- Helper: the parent of a normal absolute non-root path is the root or
again a normal absolute path with the same two-character head. -/
theorem getParentDirectoryL_shape (c : Char) (l' : List Char) (hc : c ≠ '/') :
    getParentDirectoryL ('/' :: c :: l') = ['/']
    ∨ ∃ m2, getParentDirectoryL ('/' :: c :: l') = '/' :: c :: m2 := by
  obtain ⟨m, hm⟩ := rstripSlashL_keep2 '/' c l' hc
  obtain ⟨hd, hhd⟩ := uptoLastSlash_isSome ('/' :: c :: m) (List.mem_cons_self _ _)
  rcases uptoLastSlash_keep2 c m hd hc hhd with h1 | ⟨m2, h2⟩
  · left
    subst h1
    simp only [getParentDirectoryL, hm, dirnameL, hhd]
    rw [if_neg (by simp), appendSlashIfMissingL, if_neg (by simp)]
  · right
    subst h2
    have hany : ('/' :: c :: m2).any (· ≠ '/') = true := by
      simp only [List.any_cons, Bool.or_eq_true, decide_eq_true_eq]
      exact Or.inr (Or.inl hc)
    obtain ⟨m3, hm3⟩ := rstripSlashL_keep2 '/' c m2 hc
    have hlast3 : ('/' :: c :: m3).getLast? ≠ some '/' := by
      rw [← hm3]
      exact rstripSlashL_getLast _
    refine ⟨m3 ++ ['/'], ?_⟩
    simp only [getParentDirectoryL, hm, dirnameL, hhd]
    rw [if_pos hany, hm3, appendSlashIfMissingL, if_pos ⟨by simp, hlast3⟩]
    simp

/-- Helper: unpacking `absOKb` for a non-root path. -/
theorem absOKb_elim (s : String) (h : absOKb s = true) (hne : s ≠ "/") :
    ∃ c l', s.toList = '/' :: c :: l' ∧ c ≠ '/' := by
  rw [absOKb] at h
  cases hs : s.toList with
  | nil =>
    rw [hs] at h
    simp at h
  | cons a rest =>
    rw [hs] at h
    cases rest with
    | nil =>
      exfalso
      simp only [List.head?_cons, List.tail_cons, List.head?_nil,
        Bool.and_eq_true, beq_iff_eq, Option.some.injEq] at h
      apply hne
      apply String.ext
      rw [show s.data = s.toList from rfl, hs, h.1]
    | cons b bs =>
      simp only [List.head?_cons, List.tail_cons, Bool.and_eq_true, beq_iff_eq,
        Option.some.injEq, Bool.not_eq_true', beq_eq_false_iff_ne, ne_eq] at h
      refine ⟨b, bs, ?_, h.2⟩
      rw [h.1]

/-- Helper: `absOKb` holds for any `String.mk ('/' :: c :: m)` with `c ≠ '/'`. -/
theorem absOKb_mk_shape (c : Char) (m : List Char) (hc : c ≠ '/') :
    absOKb (String.mk ('/' :: c :: m)) = true := by
  rw [absOKb]
  simp only [show (String.mk ('/' :: c :: m)).toList = '/' :: c :: m from rfl,
    List.head?_cons, List.tail_cons, Bool.and_eq_true, beq_iff_eq,
    Option.some.injEq, Bool.not_eq_true', beq_eq_false_iff_ne, ne_eq]
  exact ⟨trivial, hc⟩

/-- Helper: `getParentDirectory` strictly shortens a normal absolute non-root
path. -/
theorem getParent_length_lt (s : String) (h : absOKb s = true) (hne : s ≠ "/") :
    (getParentDirectory s).toList.length < s.toList.length := by
  obtain ⟨c, l', hs, hc⟩ := absOKb_elim s h hne
  have heq : (getParentDirectory s).toList = getParentDirectoryL s.toList := rfl
  rw [heq, hs]
  exact getParentDirectoryL_length_lt c l' hc

/-- Helper: `getParentDirectory` preserves normal absolute shape. -/
theorem absOKb_getParent (s : String) (h : absOKb s = true) (hne : s ≠ "/") :
    absOKb (getParentDirectory s) = true := by
  obtain ⟨c, l', hs, hc⟩ := absOKb_elim s h hne
  have hgp : getParentDirectory s = String.mk (getParentDirectoryL ('/' :: c :: l')) := by
    rw [getParentDirectory, hs]
  rw [hgp]
  rcases getParentDirectoryL_shape c l' hc with h1 | ⟨m2, h2⟩
  · rw [h1]
    decide
  · rw [h2]
    exact absOKb_mk_shape c m2 hc

/-- Helper: a parent directory already ends in a slash, so the loop's
`appendSlashIfMissing` on it is the identity. -/
theorem appendSlash_getParent (s : String) :
    appendSlashIfMissing (getParentDirectory s) = getParentDirectory s := by
  show String.mk (appendSlashIfMissingL (getParentDirectory s).toList) = getParentDirectory s
  rw [show (getParentDirectory s).toList = getParentDirectoryL s.toList from rfl,
    getParentDirectoryL, appendSlashIfMissingL_idem]
  rfl

/-- Helper: membership in the model after a set insertion. -/
theorem mem_zipInsert (m : List String) (x y : String) :
    y ∈ zipInsert m x ↔ y ∈ m ∨ y = x := by
  rw [zipInsert]
  split_ifs with h
  · constructor
    · exact Or.inl
    · rintro (hy | rfl)
      · exact hy
      · exact List.elem_iff.mp h
  · simp [List.mem_append]

/-- Helper: the parent-synthesis loop leaves a parent-closed model, provided
every entry except possibly the current walk position already has its parent
present. -/
theorem addParents_parentClosed (fuel : Nat) :
    ∀ (m : List String) (tmp : String), absOKb tmp = true →
      tmp.toList.length ≤ fuel →
      (∀ p ∈ m, p ≠ "/" → (getParentDirectory p ∈ m ∨ p = tmp)) →
      parentClosed (addParents fuel m tmp) := by
  induction fuel with
  | zero =>
    intro m tmp habs hlen hpcx
    exfalso
    have h1 : 1 ≤ tmp.toList.length := by
      by_cases hne : tmp = "/"
      · subst hne
        decide
      · obtain ⟨c, l', hs, _⟩ := absOKb_elim tmp habs hne
        rw [hs]
        simp
    omega
  | succ fuel ih =>
    intro m tmp habs hlen hpcx
    rw [addParents]
    by_cases hroot : tmp = "/"
    · rw [if_pos hroot]
      intro p hp hpne
      rcases hpcx p hp hpne with h | h
      · exact h
      · exact absurd (h.trans hroot) hpne
    · rw [if_neg hroot]
      simp only [appendSlash_getParent]
      apply ih
      · exact absOKb_getParent tmp habs hroot
      · have := getParent_length_lt tmp habs hroot
        omega
      · intro p hp hpne
        rcases (mem_zipInsert m (getParentDirectory tmp) p).mp hp with hpm | rfl
        · rcases hpcx p hpm hpne with h | rfl
          · exact Or.inl ((mem_zipInsert _ _ _).mpr (Or.inl h))
          · exact Or.inl ((mem_zipInsert _ _ _).mpr (Or.inr rfl))
        · exact Or.inr rfl

/-- Helper: the zip namespace is parent-closed for well-formed member names. -/
theorem zipModel_parentClosed (names : List String)
    (hwf : ∀ x ∈ names, absOKb (withLeadingSlash x) = true) :
    parentClosed (zipModel names) := by
  suffices h : ∀ (ns m : List String), (∀ x ∈ ns, absOKb (withLeadingSlash x) = true) →
      parentClosed m →
      parentClosed (ns.foldl
        (fun model x =>
          addParents (withLeadingSlash x).toList.length
            (zipInsert model (withLeadingSlash x)) (withLeadingSlash x)) m) by
    exact h names [] hwf (fun p hp => absurd hp (List.not_mem_nil p))
  intro ns
  induction ns with
  | nil =>
    intro m _ hm
    exact hm
  | cons x t ih =>
    intro m hwf' hm
    simp only [List.foldl_cons]
    apply ih
    · intro y hy
      exact hwf' y (List.mem_cons_of_mem _ hy)
    · apply addParents_parentClosed
      · exact hwf' x (List.mem_cons_self _ _)
      · exact le_refl _
      · intro p hp hpne
        rcases (mem_zipInsert m (withLeadingSlash x) p).mp hp with hpm | rfl
        · exact Or.inl ((mem_zipInsert _ _ _).mpr (Or.inl (hm p hpm hpne)))
        · exact Or.inr rfl

/-- C9: for a zip archive source with well-formed member names, every path in
the built namespace has its whole ancestor chain in the namespace; in
particular, for a source containing only `x/y/z.c`, the namespace contains
`/x/` and `/x/y/` even though neither was a stored entry. -/
theorem zipModel_ancestors_present (names : List String)
    (hwf : ∀ x ∈ names, absOKb (withLeadingSlash x) = true) :
    (∀ p ∈ zipModel names, ∀ (fuel : Nat), ∀ q ∈ parentChain fuel p, q ∈ zipModel names)
    ∧ "/x/" ∈ zipModel ["x/y/z.c"] ∧ "/x/y/" ∈ zipModel ["x/y/z.c"] := by
  refine ⟨?_, by decide, by decide⟩
  have hclosed := zipModel_parentClosed names hwf
  intro p hp fuel
  induction fuel generalizing p with
  | zero =>
    intro q hq
    simp [parentChain] at hq
  | succ fuel ih =>
    intro q hq
    rw [parentChain] at hq
    rcases List.mem_cons.mp hq with rfl | hq'
    · exact hp
    · by_cases hroot : p = "" ∨ p = "/"
      · rw [if_pos hroot] at hq'
        simp at hq'
      · rw [if_neg hroot] at hq'
        push_neg at hroot
        exact ih (getParentDirectory p) (hclosed p hp hroot.2) q hq'

/-- C9 (witness): the ancestor-presence theorem at the concrete one-entry
archive `x/y/z.c`. -/
theorem zipModel_ancestors_present_witness :
    "/x/y/" ∈ zipModel ["x/y/z.c"] :=
  (zipModel_ancestors_present ["x/y/z.c"] (by decide)).2.2

end ValidateArchive
